import Mathlib

/-!
Shallow embedding of the rustychain core: `Block` (src/block.rs), `Chain`
(src/chain.rs) and the pure state transitions of the node event loop and of
the mining worker (src/node.rs).

SHA-256 comes from the external `sha2` crate, not from this repository; it is
modelled as an arbitrary function `sha : List Nat → List Nat` from the
preimage bytes to the hash bytes, and every definition that hashes is
parameterised by it.  Bytes are `Nat` (the source uses `u8`), and the 64-bit
integers `id` and `nonce` are `Nat`: the modelled code only ever assigns them
from list lengths or compares them, so no wrap-around is observable.

The `String` payload of a block is modelled as its byte list, and the
difficulty string as its character list.
-/

/-- Big-endian 8-byte encoding of a 64-bit integer (`u64::to_be_bytes`). -/
def beBytes8 (n : Nat) : List Nat :=
  [n / 2 ^ 56 % 256, n / 2 ^ 48 % 256, n / 2 ^ 40 % 256, n / 2 ^ 32 % 256,
   n / 2 ^ 24 % 256, n / 2 ^ 16 % 256, n / 2 ^ 8 % 256, n % 256]

/-- Lowercase hexadecimal digit for a nibble, as produced by `hex::encode`. -/
def hexDigit (n : Nat) : Char :=
  if n < 10 then Char.ofNat (48 + n) else Char.ofNat (87 + n)

/-- Lowercase hexadecimal encoding of a byte list (`hex::encode`): each byte
becomes its high nibble digit followed by its low nibble digit. -/
def hexEncode (bs : List Nat) : List Char :=
  bs.foldr (fun b acc => hexDigit (b / 16 % 16) :: hexDigit (b % 16) :: acc) []

/-- Lexicographic strict order on byte lists: the embedding of Rust's derived
`Ord` comparison `<` on `[u8; 32]` (for equal-length lists the array and list
lexicographic orders agree). -/
def bytesLt : List Nat → List Nat → Bool
  | [], [] => false
  | [], _ :: _ => true
  | _ :: _, [] => false
  | a :: as, b :: bs => a < b || (a == b && bytesLt as bs)

/-- The all-zero 32-byte array `[0u8; 32]`. -/
def zeros32 : List Nat := List.replicate 32 0

/-- The `Block` struct of src/block.rs. -/
structure Block where
  id : Nat
  data : List Nat
  hash : List Nat
  prev : List Nat
  nonce : Nat
deriving DecidableEq

/-- Constructor `Block::new`: zeroed hash, prev and nonce. -/
def Block.new (id : Nat) (data : List Nat) : Block :=
  { id := id, data := data, hash := zeros32, prev := zeros32, nonce := 0 }

/-- Method `Block::calc_hash`: SHA-256 over `id` big-endian 8 bytes, the data
bytes, the 32 `prev` bytes and `nonce` big-endian 8 bytes, in that order. -/
def Block.calc_hash (sha : List Nat → List Nat) (b : Block) : List Nat :=
  sha (beBytes8 b.id ++ b.data ++ b.prev ++ beBytes8 b.nonce)

/-- Method `Block::update_hash`: store `calc_hash()` into the `hash` field. -/
def Block.update_hash (sha : List Nat → List Nat) (b : Block) : Block :=
  { b with hash := b.calc_hash sha }

/-- Method `Block::validate_hash`: `hash == calc_hash()`. -/
def Block.validate_hash (sha : List Nat → List Nat) (b : Block) : Bool :=
  b.hash == b.calc_hash sha

/-- Method `Block::string_hash`: lowercase hex encoding of the `hash` field. -/
def Block.string_hash (b : Block) : List Char :=
  hexEncode b.hash

/-- Method `Block::preequals`: equality on `id`, `data` and `prev` only. -/
def Block.preequals (b other : Block) : Bool :=
  b.id == other.id && b.data == other.data && b.prev == other.prev

/-- Method `Block::equals`: structural equality on all five fields. -/
def Block.equals (b other : Block) : Bool :=
  b.id == other.id && b.data == other.data && b.hash == other.hash
    && b.prev == other.prev && b.nonce == other.nonce

/-- The `Chain` struct of src/chain.rs: the sealed blocks, the `status` bit
(true: ready for a new block; false: still mining the tail) and the pending
queue.  The `VecDeque` queue is a list whose head is the queue front. -/
structure Chain where
  blocks : List Block
  status : Bool
  queue : List Block
deriving DecidableEq

/-- Constructor `Chain::new`: empty chain with `status = true`. -/
def Chain.new : Chain :=
  { blocks := [], status := true, queue := [] }

/-- Default block used to totalise the (unreachable in source, `expect`-ed)
out-of-range list accesses of `Chain::have_errors`. -/
def blockD : Block := Block.new 0 []

/-- Method `Chain::have_errors` (src/chain.rs lines 64-93).  Returns `none`
for an empty chain; otherwise shortens the checked range by one when
`status` is false, then runs a first loop returning the first index whose
block has a wrong `id` or an invalid hash, and only if that loop finds
nothing a second loop returning the first index `i ≥ 1` whose block's `prev`
differs from the previous block's `hash`. -/
def Chain.have_errors (sha : List Nat → List Nat) (c : Chain) : Option Nat :=
  let len := c.blocks.length
  if len = 0 then none
  else
    let len := if !c.status then len - 1 else len
    match (List.range len).find? (fun i =>
        let block := c.blocks.getD i blockD
        !(block.id == i) || !(block.validate_hash sha)) with
    | some i => some i
    | none =>
        (List.range len).find? (fun i =>
          !(i == 0) &&
            (let block := c.blocks.getD i blockD
             let prev := c.blocks.getD (i - 1) blockD
             !(block.prev == prev.hash)))

/-- The `prev` value `Chain::try_add` gives the promoted block: the tail's
hash, or all-zero bytes when the chain is empty. -/
def Chain.prevHash (c : Chain) : List Nat :=
  match c.blocks.getLast? with
  | some a => a.hash
  | none => zeros32

/-- Method `Chain::try_add` (src/chain.rs lines 122-142), returning the Rust
boolean together with the updated chain.  When `status` holds and the queue
is non-empty, the queue head is popped, given `prev` from the tail (or
zeros) and `id = blocks.len()`, and pushed onto `blocks`. -/
def Chain.try_add (c : Chain) : Bool × Chain :=
  if c.status then
    match c.queue with
    | [] => (false, c)
    | blk :: rest =>
        let blk := { blk with prev := c.prevHash, id := c.blocks.length }
        (true, { c with blocks := c.blocks ++ [blk], queue := rest })
  else
    (false, c)

/-- Method `Chain::add_queue` (src/chain.rs lines 165-168): reassign the
block's `id` to `blocks.len() + queue.len()` and push it to the queue back. -/
def Chain.add_queue (c : Chain) (block : Block) : Chain :=
  { c with queue := c.queue ++ [{ block with id := c.blocks.length + c.queue.length }] }

/-- The `Message` enum of src/message.rs (spelled `ChainResponce` as in the
source). -/
inductive Msg where
  | minedBlock : Block → Msg
  | newBlock : Block → Msg
  | chainRequest : Msg
  | chainResponce : Chain → Msg
deriving DecidableEq

/-!
Pure state transitions of the node event loop (`Node::run`, src/node.rs).
Each inbound-message match arm is a function from the chain (and message
payload) to the new chain together with the list of messages the arm sends,
in send order.  The `MinedBlock` arm is translated as the composition of its
sequential statements: the validation gate, the two tail-rewriting `if`
blocks, the behind-check send, and the error check with its repair loop.
-/

/-- Replacement of the tail block through the `last_mut` borrow: all blocks
but the last are kept, the last becomes `nb`. -/
def replaceLast (c : Chain) (nb : Block) : Chain :=
  { c with blocks := c.blocks.dropLast ++ [nb] }

/-- The `NewBlock(block)` arm (src/node.rs lines 92-94): `chain.add_queue(block)`. -/
def newBlockStep (c : Chain) (block : Block) : Chain :=
  c.add_queue block

/-- The `ChainRequest` arm (src/node.rs lines 95-102): send a `ChainResponce`
with a clone of the chain; the chain is unchanged. -/
def chainRequestStep (c : Chain) : Chain × List Msg :=
  (c, [Msg.chainResponce c])

/-- The `ChainResponce(chain)` arm (src/node.rs lines 103-112): adopt the
peer chain wholesale when it has no errors and is strictly longer. -/
def chainResponceStep (sha : List Nat → List Nat) (c peer : Chain) : Chain :=
  if (peer.have_errors sha).isNone then
    if c.blocks.length < peer.blocks.length then peer else c
  else c

/-- First `if` block of the `MinedBlock` arm (src/node.rs lines 124-128): the
tie-break that replaces the tail's hash and nonce by the incoming block's
when the ids match, the chain is sealed, the blocks pre-equal and the
incoming hash is lexicographically smaller. -/
def phaseTie (c : Chain) (block : Block) : Chain :=
  let last := c.blocks.getLastD blockD
  if block.id == last.id && c.status && block.preequals last
      && bytesLt block.hash last.hash then
    replaceLast c { last with hash := block.hash, nonce := block.nonce }
  else c

/-- Second `if` block of the `MinedBlock` arm (src/node.rs lines 130-135):
when the ids match, the chain is unsealed and the blocks pre-equal, adopt
the incoming hash and nonce and set `status` to true. -/
def phaseTake (c : Chain) (block : Block) : Chain :=
  let last := c.blocks.getLastD blockD
  if block.id == last.id && !c.status && block.preequals last then
    { replaceLast c { last with hash := block.hash, nonce := block.nonce } with
        status := true }
  else c

/-- Third `if` block of the `MinedBlock` arm (src/node.rs lines 137-141):
when the incoming block's id is beyond the tail's, send a `ChainRequest`. -/
def phaseBehind (c : Chain) (block : Block) : List Msg :=
  let last := c.blocks.getLastD blockD
  if last.id < block.id then [Msg.chainRequest] else []

/-- One iteration of the repair loop body (src/node.rs lines 145-148):
`blocks.pop()` then `queue.push_front(block)`. -/
def popPushFront (c : Chain) : Chain :=
  { c with blocks := c.blocks.dropLast, queue := c.blocks.getLastD blockD :: c.queue }

/-- The repair loop, iterated a fixed number of times (the Rust range
`id..blocks.len()` is evaluated once, so the count is `blocks.len() - id`). -/
def repairLoop (c : Chain) : Nat → Chain
  | 0 => c
  | k + 1 => repairLoop (popPushFront c) k

/-- Fourth `if` block of the `MinedBlock` arm (src/node.rs lines 143-152):
when `have_errors()` reports an index, pop every block from that index on
into the queue front and send a `ChainRequest`. -/
def errorCheckPhase (sha : List Nat → List Nat) (c : Chain) : Chain × List Msg :=
  match c.have_errors sha with
  | some i => (repairLoop c (c.blocks.length - i), [Msg.chainRequest])
  | none => (c, [])

/-- The `Some(last)` branch of the `MinedBlock` arm: the four sequential `if`
blocks over the borrowed tail (src/node.rs lines 122-153). -/
def minedTail (sha : List Nat → List Nat) (c : Chain) (block : Block) : Chain × List Msg :=
  let c1 := phaseTie c block
  let c2 := phaseTake c1 block
  let ms := phaseBehind c2 block
  let r := errorCheckPhase sha c2
  (r.1, ms ++ r.2)

/-- Tail resolution of the `MinedBlock` arm: the `match` on
`blocks.last_mut()` (src/node.rs lines 120-160); an empty chain answers
with a `ChainRequest` and adopts nothing. -/
def tailResolution (sha : List Nat → List Nat) (c : Chain) (block : Block) :
    Chain × List Msg :=
  match c.blocks.getLast? with
  | none => (c, [Msg.chainRequest])
  | some _ => minedTail sha c block

/-- The whole `MinedBlock(block)` arm (src/node.rs lines 113-161): the
validation gate `block.hash != block.calc_hash() &&
block.string_hash().ends_with(&self.difficult)` drops the block (the arm
`continue`s), otherwise tail resolution runs. -/
def minedBlockStep (sha : List Nat → List Nat) (diff : List Char) (c : Chain)
    (block : Block) : Chain × List Msg :=
  if !(block.hash == block.calc_hash sha) && diff.isSuffixOf block.string_hash then
    (c, [])
  else
    tailResolution sha c block

/-- One search iteration of `nonce_worker` (src/node.rs lines 233-245) at a
given sampled nonce: write the nonce into the stored block, recompute its
hash, and emit `(hash, nonce)` exactly when the hex encoding of the hash
ends with the difficulty suffix.  Returns the mutated stored block and the
optional emission. -/
def workerStep (sha : List Nat → List Nat) (block : Block) (diff : List Char)
    (nonce : Nat) : Block × Option (List Nat × Nat) :=
  let block := { block with nonce := nonce }
  let block := block.update_hash sha
  if diff.isSuffixOf block.string_hash then
    (block, some (block.hash, nonce))
  else
    (block, none)

/-!
Concrete objects used by witnesses and counterexamples.  `shaZero` is a
legitimate instantiation of the hash-function parameter: every theorem below
holds for every `sha`, and the concrete checks evaluate with this one.
-/

/-- Constant hash function used to evaluate witnesses: every preimage hashes
to the all-zero 32-byte array. -/
def shaZero : List Nat → List Nat := fun _ => zeros32

/-- A 32-byte array distinct from `zeros32` (leading byte 1). -/
def oneZeros : List Nat := 1 :: List.replicate 31 0

/-- A block that `shaZero`-validates at index 0. -/
def wBlock0 : Block :=
  { id := 0, data := [], hash := zeros32, prev := zeros32, nonce := 0 }

/-- A witness chain: empty blocks, sealed, one queued block. -/
def wChainQ : Chain :=
  { blocks := [], status := true, queue := [Block.new 0 [1]] }

/-- Tail block used by the C6 witness: `wBlock0` with the larger hash. -/
def wTail6 : Block := { wBlock0 with hash := oneZeros }

/-- Chain used by the C6 witness: sealed, with `wTail6` as its only block. -/
def wChain6 : Chain := { blocks := [wTail6], status := true, queue := [] }

/-- First-pass violation at index `i` of `Chain::have_errors`, as the spec
words it: the block's id differs from its position, or its hash does not
validate. -/
def Pass1Bad (sha : List Nat → List Nat) (c : Chain) (i : Nat) : Prop :=
  (c.blocks.getD i blockD).id ≠ i ∨ (c.blocks.getD i blockD).validate_hash sha = false

/-- Second-pass violation at index `i` of `Chain::have_errors`: `i ≥ 1` and
the block's `prev` differs from the previous block's `hash`. -/
def Pass2Bad (c : Chain) (i : Nat) : Prop :=
  i ≠ 0 ∧ (c.blocks.getD i blockD).prev ≠ (c.blocks.getD (i - 1) blockD).hash

instance (sha : List Nat → List Nat) (c : Chain) (i : Nat) :
    Decidable (Pass1Bad sha c i) := by
  unfold Pass1Bad
  infer_instance

instance (c : Chain) (i : Nat) : Decidable (Pass2Bad c i) := by
  unfold Pass2Bad
  infer_instance

/-- The number of blocks `Chain::have_errors` checks: all of them when
`status` is true, all but the last when it is false. -/
def checkedLen (c : Chain) : Nat :=
  if c.status then c.blocks.length else c.blocks.length - 1

/-- Counterexample chain for C1 (evaluated with `shaZero`): every block's
stored hash is the `shaZero` hash, the block at index 1 has a broken `prev`
link (a second-pass violation), and the block at index 3 has a wrong id (a
first-pass violation). -/
def cx1 : Chain :=
  { blocks :=
      [wBlock0,
       { id := 1, data := [], hash := zeros32, prev := oneZeros, nonce := 0 },
       { id := 2, data := [], hash := zeros32, prev := zeros32, nonce := 0 },
       { id := 9, data := [], hash := zeros32, prev := zeros32, nonce := 0 }],
    status := true, queue := [] }

/-- Block with a wrong id used by the C4 witness chain. -/
def wBad4 : Block :=
  { id := 7, data := [], hash := zeros32, prev := zeros32, nonce := 0 }

/-- Witness chain for C4: index 1 fails the first pass, one queued block. -/
def wChain4 : Chain :=
  { blocks := [wBlock0, wBad4], status := true, queue := [Block.new 5 [3]] }

/-- C9.  For every block, `update_hash` is idempotent on the `hash` field and
leaves `validate_hash()` true, because `calc_hash` does not read `hash`. -/
theorem update_hash_idempotent (sha : List Nat → List Nat) (b : Block) :
    ((b.update_hash sha).update_hash sha).hash = (b.update_hash sha).hash ∧
      (b.update_hash sha).validate_hash sha = true := by
  refine ⟨rfl, ?_⟩
  simp [Block.validate_hash, Block.update_hash, Block.calc_hash]

/-- C7.  `try_add` returns true exactly when the chain status is true and the
queue is non-empty; in that case it pops the queue head, gives it
`prev = prevHash` (the tail hash, or zeros for an empty chain) and
`id = blocks.len()`, and appends it to the blocks; otherwise it returns
false. -/
theorem try_add_spec (c : Chain) :
    (c.try_add.1 = true ↔ c.status = true ∧ c.queue ≠ []) ∧
      (∀ hd tl, c.status = true → c.queue = hd :: tl →
        c.try_add = (true,
          { blocks := c.blocks ++ [{ hd with prev := c.prevHash, id := c.blocks.length }],
            status := c.status, queue := tl })) ∧
      (c.status = false ∨ c.queue = [] → c.try_add.1 = false) := by
  obtain ⟨blocks, status, queue⟩ := c
  cases status <;> cases queue <;>
    simp [Chain.try_add]

/-- Witness for C7 at a concrete sealed chain with one queued block. -/
theorem try_add_spec_witness :
    wChainQ.try_add = (true,
      { blocks := wChainQ.blocks ++
          [{ Block.new 0 [1] with prev := wChainQ.prevHash, id := wChainQ.blocks.length }],
        status := wChainQ.status, queue := [] }) :=
  (try_add_spec wChainQ).2.1 (Block.new 0 [1]) [] rfl rfl

/-- C10.  `try_add` is atomic and framed: a false return leaves the chain
untouched; a true return keeps the status and every pre-existing block,
removes exactly the queue front, and appends one block that differs from
the popped head only in its `id` and `prev` fields. -/
theorem try_add_frame (c : Chain) :
    (c.try_add.1 = false → c.try_add.2 = c) ∧
      (c.try_add.1 = true →
        c.try_add.2.status = c.status ∧
          ∃ hd tl, c.queue = hd :: tl ∧ c.try_add.2.queue = tl ∧
            ∃ i p, c.try_add.2.blocks = c.blocks ++ [{ hd with id := i, prev := p }]) := by
  obtain ⟨blocks, status, queue⟩ := c
  cases status
  · exact ⟨fun _ => rfl, fun h => by simp [Chain.try_add] at h⟩
  · cases queue with
    | nil => exact ⟨fun _ => rfl, fun h => by simp [Chain.try_add] at h⟩
    | cons hd tl =>
        refine ⟨fun h => by simp [Chain.try_add] at h, fun _ => ?_⟩
        exact ⟨rfl, hd, tl, rfl, rfl, blocks.length,
          Chain.prevHash { blocks := blocks, status := true, queue := hd :: tl }, rfl⟩

/-- Witness for C10: the true-return case at a concrete chain. -/
theorem try_add_frame_witness :
    wChainQ.try_add.2.status = wChainQ.status ∧
      ∃ hd tl, wChainQ.queue = hd :: tl ∧ wChainQ.try_add.2.queue = tl ∧
        ∃ i p, wChainQ.try_add.2.blocks = wChainQ.blocks ++ [{ hd with id := i, prev := p }] :=
  (try_add_frame wChainQ).2 (by decide)

/-- C3.  The `MinedBlock` validation gate drops the block, leaving the chain
unchanged and sending nothing, exactly when the stored hash differs from
the computed hash AND the lowercase hex encoding of the stored hash ends
with the difficulty suffix; in every other case (including a wrong hash
that fails the suffix) the arm proceeds to tail resolution. -/
theorem mined_gate_spec (sha : List Nat → List Nat) (diff : List Char) (c : Chain)
    (b : Block) :
    (¬ b.hash = b.calc_hash sha ∧ diff.isSuffixOf b.string_hash = true →
        minedBlockStep sha diff c b = (c, [])) ∧
      (b.hash = b.calc_hash sha ∨ diff.isSuffixOf b.string_hash = false →
        minedBlockStep sha diff c b = tailResolution sha c b) := by
  constructor
  · rintro ⟨h1, h2⟩
    have hb : (b.hash == b.calc_hash sha) = false := beq_eq_false_iff_ne.2 h1
    simp [minedBlockStep, hb, h2]
  · rintro (h | h)
    · have hb : (b.hash == b.calc_hash sha) = true := beq_iff_eq.2 h
      simp [minedBlockStep, hb]
    · simp [minedBlockStep, h]

/-- Witness for C3: a block whose stored hash disagrees with its `shaZero`
hash and whose hex encoding ends with the empty suffix is dropped. -/
theorem mined_gate_spec_witness :
    minedBlockStep shaZero [] { blocks := [wBlock0], status := true, queue := [] }
        { wBlock0 with hash := oneZeros } =
      ({ blocks := [wBlock0], status := true, queue := [] }, []) :=
  (mined_gate_spec shaZero [] { blocks := [wBlock0], status := true, queue := [] }
      { wBlock0 with hash := oneZeros }).1 ⟨by decide, by decide⟩

/-- C5.  A `ChainResponce` replaces the node's chain wholesale (blocks,
status and queue) exactly when the peer chain has no errors and is strictly
longer; otherwise the node's chain is unchanged. -/
theorem chain_responce_spec (sha : List Nat → List Nat) (c peer : Chain) :
    (peer.have_errors sha = none ∧ c.blocks.length < peer.blocks.length →
        chainResponceStep sha c peer = peer) ∧
      (peer.have_errors sha ≠ none ∨ peer.blocks.length ≤ c.blocks.length →
        chainResponceStep sha c peer = c) := by
  constructor
  · rintro ⟨h1, h2⟩
    simp [chainResponceStep, h1, h2]
  · rintro (h | h)
    · simp [chainResponceStep, Option.isNone_iff_eq_none, h]
    · have : ¬ c.blocks.length < peer.blocks.length := Nat.not_lt.2 h
      simp [chainResponceStep, this]

/-- Witness for C5: a longer error-free peer chain is adopted wholesale. -/
theorem chain_responce_spec_witness :
    chainResponceStep shaZero Chain.new
        { blocks := [wBlock0], status := true, queue := [Block.new 1 [7]] } =
      { blocks := [wBlock0], status := true, queue := [Block.new 1 [7]] } :=
  (chain_responce_spec shaZero Chain.new
      { blocks := [wBlock0], status := true, queue := [Block.new 1 [7]] }).1
    ⟨by decide, by decide⟩

/-- C8.  Whatever the worker emits from a search iteration is the pair of
the recomputed hash of the stored block at the sampled nonce and that
nonce, so the block with this nonce and hash validates, and the hex
encoding of the hash ends with the difficulty suffix; an iteration whose
nonce fails the suffix emits nothing. -/
theorem worker_step_spec (sha : List Nat → List Nat) (b : Block) (diff : List Char)
    (nonce : Nat) :
    (∀ h n, (workerStep sha b diff nonce).2 = some (h, n) →
        n = nonce ∧ h = Block.calc_hash sha { b with nonce := nonce } ∧
          Block.validate_hash sha { b with nonce := nonce, hash := h } = true ∧
          diff.isSuffixOf (hexEncode h) = true) ∧
      (diff.isSuffixOf (hexEncode (Block.calc_hash sha { b with nonce := nonce })) = false →
        (workerStep sha b diff nonce).2 = none) := by
  constructor
  · intro h n hemit
    by_cases hs : diff.isSuffixOf
        (Block.string_hash (Block.update_hash sha { b with nonce := nonce })) = true
    · rw [workerStep] at hemit
      simp only [hs, if_true] at hemit
      obtain ⟨hh, hn⟩ := Prod.mk.injEq .. ▸ Option.some.injEq .. ▸ hemit
      refine ⟨hn.symm, ?_, ?_, ?_⟩
      · exact hh ▸ rfl
      · subst hh hn
        simp [Block.validate_hash, Block.update_hash, Block.calc_hash]
      · exact hh ▸ hs
    · rw [workerStep] at hemit
      simp [eq_false_of_ne_true hs] at hemit
  · intro hs
    have h2 : List.isSuffixOf diff
        (Block.string_hash (Block.update_hash sha { b with nonce := nonce })) = false := hs
    simp [workerStep, h2]

/-- Witness for C8: with the empty suffix the iteration always emits, and
the theorem evaluates at a concrete block and nonce. -/
theorem worker_step_spec_witness :
    (workerStep shaZero wBlock0 [] 5).2 = some (zeros32, 5) ∧
      (5 = 5 ∧ zeros32 = Block.calc_hash shaZero { wBlock0 with nonce := 5 } ∧
        Block.validate_hash shaZero { wBlock0 with nonce := 5, hash := zeros32 } = true ∧
        List.isSuffixOf [] (hexEncode zeros32) = true) :=
  ⟨by decide, (worker_step_spec shaZero wBlock0 [] 5).1 zeros32 5 (by decide)⟩

/-- C6.  In the tie-break portion of the `MinedBlock` arm (the two
tail-rewriting `if` blocks), when the chain's tail is `t`, the chain is
sealed, the incoming block `b` has the tail's id, pre-equals it and has a
lexicographically smaller hash, the tail's hash and nonce are replaced by
`b`'s (and the behind-check sends nothing); when `b`'s hash is not smaller,
the chain is left unchanged. -/
theorem tie_break_spec (c : Chain) (b t : Block)
    (hlast : c.blocks.getLast? = some t) (hid : b.id = t.id)
    (hst : c.status = true) (hpre : b.preequals t = true) :
    (bytesLt b.hash t.hash = true →
        phaseTake (phaseTie c b) b =
            replaceLast c { t with hash := b.hash, nonce := b.nonce } ∧
          phaseBehind (phaseTake (phaseTie c b) b) b = []) ∧
      (bytesLt b.hash t.hash = false →
        phaseTake (phaseTie c b) b = c ∧ phaseBehind c b = []) := by
  constructor
  · intro hlt
    have h1 : phaseTie c b = replaceLast c { t with hash := b.hash, nonce := b.nonce } := by
      simp [phaseTie, hlast, hid, hst, hpre, hlt]
    have h2 : phaseTake (phaseTie c b) b =
        replaceLast c { t with hash := b.hash, nonce := b.nonce } := by
      rw [h1]
      simp [phaseTake, replaceLast, List.getLastD_concat, hst]
    refine ⟨h2, ?_⟩
    rw [h2]
    simp [phaseBehind, replaceLast, List.getLastD_concat, hid]
  · intro hlt
    have h1 : phaseTie c b = c := by
      simp [phaseTie, hlast, hlt]
    have h2 : phaseTake (phaseTie c b) b = c := by
      rw [h1]
      simp [phaseTake, hst]
    refine ⟨h2, ?_⟩
    simp [phaseBehind, hlast, hid]

/-- Witness for C6: a competing proof with a smaller hash replaces the
sealed tail's hash and nonce. -/
theorem tie_break_spec_witness :
    phaseTake (phaseTie wChain6 wBlock0) wBlock0 =
        replaceLast wChain6 { wTail6 with hash := wBlock0.hash, nonce := wBlock0.nonce } ∧
      phaseBehind (phaseTake (phaseTie wChain6 wBlock0) wBlock0) wBlock0 = [] :=
  (tie_break_spec wChain6 wBlock0 wTail6 (by decide) (by decide) (by decide)
      (by decide)).1 (by decide)

/-- C2 counterexample.  Two `NewBlock` blocks agreeing on `data` but
differing in `nonce` do not produce the same chain state: the queued entry
keeps the incoming block's `nonce` (and `hash` and `prev`). -/
theorem new_block_state_counterexample :
    (Block.new 0 [1]).data = ({ Block.new 0 [1] with nonce := 3 } : Block).data ∧
      newBlockStep Chain.new (Block.new 0 [1]) ≠
        newBlockStep Chain.new { Block.new 0 [1] with nonce := 3 } := by
  decide

/-- C2 amended.  Handling `NewBlock(b)` appends to the back of the queue the
block `b` with only its `id` reassigned to `len(blocks) + len(queue)`; its
`data`, `hash`, `prev` and `nonce` are carried over unchanged, so the
resulting state is the same for any two `NewBlock` messages whose blocks
agree on `data`, `hash`, `prev` and `nonce`. -/
theorem new_block_spec (c : Chain) (b : Block) :
    newBlockStep c b =
        { c with queue := c.queue ++ [{ b with id := c.blocks.length + c.queue.length }] } ∧
      (∀ b2 : Block, b.data = b2.data → b.hash = b2.hash → b.prev = b2.prev →
        b.nonce = b2.nonce → newBlockStep c b = newBlockStep c b2) := by
  refine ⟨rfl, ?_⟩
  intro b2 h1 h2 h3 h4
  simp [newBlockStep, Chain.add_queue, h1, h2, h3, h4]

/-- Witness for C2: two blocks differing only in their (reassigned) id give
the same state. -/
theorem new_block_spec_witness :
    newBlockStep Chain.new (Block.new 0 [1]) =
      newBlockStep Chain.new { Block.new 0 [1] with id := 77 } :=
  (new_block_spec Chain.new (Block.new 0 [1])).2 { Block.new 0 [1] with id := 77 }
    rfl rfl rfl rfl


/-- Helper: a Bool-valued test equals false exactly when its Prop reading
fails. -/
theorem bool_false_iff {b : Bool} {P : Prop} (h : b = true ↔ P) : b = false ↔ ¬ P := by
  rw [← h]
  cases b <;> simp

/-- Helper: the first-match characterisation of `find?` over `List.range`. -/
theorem range_find?_eq_some {p : Nat → Bool} {n : Nat} : ∀ {i : Nat},
    (List.range n).find? p = some i ↔
      i < n ∧ p i = true ∧ ∀ j, j < i → p j = false := by
  induction n with
  | zero => intro i; simp
  | succ n ih =>
      intro i
      rw [List.range_succ, List.find?_append]
      cases hf : (List.range n).find? p with
      | some k =>
          obtain ⟨hk, hpk, hmin⟩ := ih.1 hf
          simp only [Option.or_some, Option.some.injEq]
          constructor
          · rintro rfl
            exact ⟨Nat.lt_succ_of_lt hk, hpk, hmin⟩
          · rintro ⟨_, hpi, hmini⟩
            rcases Nat.lt_trichotomy k i with h | h | h
            · exact absurd hpk (by simp [hmini k h])
            · exact h
            · exact absurd hpi (by simp [hmin i h])
      | none =>
          have hall : ∀ j, j < n → p j = false := by
            intro j hj
            have hnp := List.find?_eq_none.1 hf j (List.mem_range.2 hj)
            cases hpj : p j with
            | false => rfl
            | true => exact absurd hpj hnp
          simp only [Option.none_or]
          cases hp : p n with
          | true =>
              rw [List.find?_cons_of_pos _ hp]
              simp only [Option.some.injEq]
              constructor
              · rintro rfl
                exact ⟨Nat.lt_succ_self n, hp, hall⟩
              · rintro ⟨hi, hpi, _⟩
                rcases Nat.lt_succ_iff_lt_or_eq.1 hi with h | h
                · exact absurd hpi (by simp [hall i h])
                · exact h.symm
          | false =>
              rw [List.find?_cons_of_neg _ (by simp [hp]), List.find?_nil]
              constructor
              · intro h
                simp at h
              · rintro ⟨hi, hpi, _⟩
                rcases Nat.lt_succ_iff_lt_or_eq.1 hi with h | h
                · exact absurd hpi (by simp [hall i h])
                · subst h
                  exact absurd hpi (by simp [hp])

/-- Helper: the Boolean first-pass test of `have_errors` decides `Pass1Bad`. -/
theorem pass1_iff (sha : List Nat → List Nat) (c : Chain) (j : Nat) :
    ((let block := c.blocks.getD j blockD
      !(block.id == j) || !(block.validate_hash sha)) = true) ↔ Pass1Bad sha c j := by
  simp [Pass1Bad, Bool.not_eq_true']

/-- Helper: the Boolean second-pass test of `have_errors` decides `Pass2Bad`. -/
theorem pass2_iff (c : Chain) (j : Nat) :
    ((!(j == 0) &&
        (let block := c.blocks.getD j blockD
         let prev := c.blocks.getD (j - 1) blockD
         !(block.prev == prev.hash))) = true) ↔ Pass2Bad c j := by
  simp [Pass2Bad, Bool.not_eq_true']

/-- C1 amended.  `have_errors` reports the lowest index failing the first
pass (wrong id or invalid hash) over the checked range; only when no index
fails the first pass does it report the lowest index failing the second
pass (broken `prev` link).  The first pass takes priority over the second,
so the result is not in general the lowest index across both kinds of
violation; an empty chain reports none. -/
theorem have_errors_two_pass (sha : List Nat → List Nat) (c : Chain) (i : Nat) :
    c.have_errors sha = some i ↔
      (i < checkedLen c ∧ Pass1Bad sha c i ∧ ∀ j, j < i → ¬ Pass1Bad sha c j) ∨
        ((∀ j, j < checkedLen c → ¬ Pass1Bad sha c j) ∧
          i < checkedLen c ∧ Pass2Bad c i ∧ ∀ j, j < i → ¬ Pass2Bad c j) := by
  by_cases hn : c.blocks.length = 0
  · have hcl : checkedLen c = 0 := by
      cases hs : c.status <;> simp [checkedLen, hn]
    rw [Chain.have_errors]
    simp [hn, hcl]
  · have hlen : (if !c.status then c.blocks.length - 1 else c.blocks.length) =
        checkedLen c := by
      cases hs : c.status <;> simp [checkedLen, hs]
    rw [Chain.have_errors]
    simp only [hn, if_false, hlen]
    cases hf1 : (List.range (checkedLen c)).find? (fun i =>
        let block := c.blocks.getD i blockD
        !(block.id == i) || !(block.validate_hash sha)) with
    | some k =>
        obtain ⟨hk, hpk, hmin⟩ := range_find?_eq_some.1 hf1
        have hbadk : Pass1Bad sha c k := (pass1_iff sha c k).1 hpk
        have hminP : ∀ j, j < k → ¬ Pass1Bad sha c j := fun j hj =>
          (bool_false_iff (pass1_iff sha c j)).1 (hmin j hj)
        simp only [Option.some.injEq]
        constructor
        · rintro rfl
          exact Or.inl ⟨hk, hbadk, hminP⟩
        · rintro (⟨hi, hbi, hmini⟩ | ⟨hnone, _, _, _⟩)
          · rcases Nat.lt_trichotomy k i with h | h | h
            · exact absurd hbadk (hmini k h)
            · exact h
            · exact absurd hbi (hminP i h)
          · exact absurd hbadk (hnone k hk)
    | none =>
        have hnoneP : ∀ j, j < checkedLen c → ¬ Pass1Bad sha c j := by
          intro j hj hb
          have hfalse := List.find?_eq_none.1 hf1 j (List.mem_range.2 hj)
          exact hfalse ((pass1_iff sha c j).2 hb)
        rw [range_find?_eq_some]
        constructor
        · rintro ⟨hi, hpi, hmini⟩
          refine Or.inr ⟨hnoneP, hi, (pass2_iff c i).1 hpi, fun j hj hb => ?_⟩
          exact absurd hb ((bool_false_iff (pass2_iff c j)).1 (hmini j hj))
        · rintro (⟨hi, hbi, _⟩ | ⟨_, hi, hbi, hmini⟩)
          · exact absurd hbi (hnoneP i hi)
          · exact ⟨hi, (pass2_iff c i).2 hbi, fun j hj =>
              (bool_false_iff (pass2_iff c j)).2 (hmini j hj)⟩

/-- C1 counterexample.  On `cx1` a second-pass violation exists at index 1,
yet `have_errors` reports index 3 (a first-pass violation), so the reported
index is not the lowest index at which any violation occurs. -/
theorem have_errors_lowest_counterexample :
    cx1.have_errors shaZero = some 3 ∧ (Pass1Bad shaZero cx1 1 ∨ Pass2Bad cx1 1) ∧
      (1 : Nat) < 3 := by
  refine ⟨by decide, Or.inr (by decide), by decide⟩

/-- Witness for C1: the amended characterisation evaluates on `cx1`, whose
reported index 3 is the least first-pass violation. -/
theorem have_errors_two_pass_witness :
    (3 < checkedLen cx1 ∧ Pass1Bad shaZero cx1 3 ∧ ∀ j, j < 3 → ¬ Pass1Bad shaZero cx1 j) ∨
      ((∀ j, j < checkedLen cx1 → ¬ Pass1Bad shaZero cx1 j) ∧
        3 < checkedLen cx1 ∧ Pass2Bad cx1 3 ∧ ∀ j, j < 3 → ¬ Pass2Bad cx1 j) :=
  (have_errors_two_pass shaZero cx1 3).1 (by decide)

/-- Helper: an index reported by `have_errors` lies within the blocks. -/
theorem have_errors_lt (sha : List Nat → List Nat) (c : Chain) (i : Nat)
    (h : c.have_errors sha = some i) : i < c.blocks.length := by
  rw [Chain.have_errors] at h
  by_cases hn : c.blocks.length = 0
  · simp [hn] at h
  · simp only [hn, if_false] at h
    have hle : (if !c.status then c.blocks.length - 1 else c.blocks.length) ≤
        c.blocks.length := by
      cases c.status <;> simp
    revert h
    cases hf : (List.range (if !c.status then c.blocks.length - 1 else c.blocks.length)).find?
        (fun i =>
          let block := c.blocks.getD i blockD
          !(block.id == i) || !(block.validate_hash sha)) with
    | some k =>
        intro h
        have hki : k = i := by simpa using h
        subst hki
        have hmem := List.mem_range.1 (List.mem_of_find?_eq_some hf)
        exact Nat.lt_of_lt_of_le hmem hle
    | none =>
        intro h
        have hmem := List.mem_range.1 (List.mem_of_find?_eq_some h)
        exact Nat.lt_of_lt_of_le hmem hle

/-- Helper: `repairLoop` pops the last `k` blocks, in order, onto the queue
front. -/
theorem repairLoop_eq (k : Nat) : ∀ c : Chain, k ≤ c.blocks.length →
    repairLoop c k =
      { blocks := c.blocks.take (c.blocks.length - k), status := c.status,
        queue := c.blocks.drop (c.blocks.length - k) ++ c.queue } := by
  induction k with
  | zero =>
      intro c _
      simp [repairLoop]
  | succ k ih =>
      intro c h
      have hne : c.blocks ≠ [] := by
        intro hnil
        rw [hnil] at h
        exact absurd h (by simp)
      rcases (List.eq_nil_or_concat c.blocks).resolve_left hne with ⟨L, a, hLa⟩
      rw [List.concat_eq_append] at hLa
      have hlen : c.blocks.length = L.length + 1 := by rw [hLa]; simp
      have hk : k ≤ L.length := by omega
      have hpop : popPushFront c =
          { blocks := L, status := c.status, queue := a :: c.queue } := by
        rw [popPushFront, hLa]
        simp
      rw [repairLoop, hpop, ih _ (by simpa using hk)]
      have hsub : c.blocks.length - (k + 1) = L.length - k := by omega
      rw [hsub, hLa]
      rw [List.take_append_of_le_length (Nat.sub_le _ _),
        List.drop_append_of_le_length (Nat.sub_le _ _)]
      simp

/-- C4.  When `have_errors()` reports index `i` on the chain state reached
after tail handling, the repair step keeps exactly the old `blocks[0..i]`
and the new queue is the old `blocks[i..]`, in their original chain order,
followed by the old queue contents; a `ChainRequest` is then sent. -/
theorem mined_repair_spec (sha : List Nat → List Nat) (c : Chain) (i : Nat)
    (h : c.have_errors sha = some i) :
    errorCheckPhase sha c =
      ({ blocks := c.blocks.take i, status := c.status,
         queue := c.blocks.drop i ++ c.queue }, [Msg.chainRequest]) := by
  have hi : i < c.blocks.length := have_errors_lt sha c i h
  rw [errorCheckPhase, h]
  dsimp only
  rw [repairLoop_eq (c.blocks.length - i) c (Nat.sub_le _ _)]
  have hsub : c.blocks.length - (c.blocks.length - i) = i := by omega
  rw [hsub]

/-- Witness for C4: the repair step at a concrete erroneous chain. -/
theorem mined_repair_spec_witness :
    errorCheckPhase shaZero wChain4 =
      ({ blocks := wChain4.blocks.take 1, status := wChain4.status,
         queue := wChain4.blocks.drop 1 ++ wChain4.queue }, [Msg.chainRequest]) :=
  mined_repair_spec shaZero wChain4 1 (by decide)
